import Mathlib

/-!
A shallow embedding of `src/snotes.py` (a single-file tkinter note-taking
application) together with proofs about the claims of its specification.

Modelling conventions, stated once here:

* Python strings are modelled as `List Char` (`Str`).  Python's `str.strip`,
  `str.split`, `str.lower`, slicing `[:n]` and the substring test `in` are
  reproduced on lists (`pyStrip`, `pySplit`, `pyLower`, `List.take`,
  `hasSub`).  Only the ASCII behaviour matters for the claims; the Unicode
  extras of Python's versions are irrelevant to every statement below.
* Timestamps are produced by `datetime.now().isoformat()` and only ever
  compared with string comparison; ISO-8601 strings compare lexicographically
  in chronological order, so timestamps are modelled as `Nat`, with the
  current time passed as an explicit `now` argument.
* `self.notes` is a Python `dict` (insertion ordered, unique keys): modelled
  as an association list `NotesMap` with order-preserving operations
  (`lookupKey`, `eraseKey`, `updateKey`, `setKey` mirroring `d[k]`, `del
  d[k]`, `d[k].update(...)`, `d[k] = v`).
* The notes file is modelled by `NotesFile`: it is absent, or unreadable
  (opening / reading / `json.load` raises), or holds a parsed JSON value
  `J`.  `json.dump`/`json.load` round-trip JSON values made of objects,
  strings and integers exactly, so persistence is modelled at the level of
  JSON values, not character streams.
* GUI plumbing (widgets, listbox rebuilding, status bar, message boxes) is
  not state that any claim is about; dialogs and the editor text enter the
  model as explicit arguments (`confirm`, `dialog`, `editor`), and an error
  dialog is modelled as a returned `Bool` flag.  The editor text argument is
  the string returned by `text_editor.get("1.0", END)`.
* A failing file write (`save_notes`' `except` branch) is modelled by the
  explicit argument `wf : Bool` ("write fails").
-/

abbrev Str := List Char

/-- Python `str.strip()`'s whitespace test, on the ASCII whitespace
characters (space, tab, newline, carriage return, vertical tab, form feed). -/
def pyIsSpace (c : Char) : Bool :=
  c = ' ' || c = '\t' || c = '\n' || c = '\r' || c = '\x0b' || c = '\x0c'

/-- Python `str.lstrip()`. -/
def pyLstrip (s : Str) : Str := s.dropWhile pyIsSpace

/-- Python `str.rstrip()`. -/
def pyRstrip (s : Str) : Str := (s.reverse.dropWhile pyIsSpace).reverse

/-- Python `str.strip()`. -/
def pyStrip (s : Str) : Str := pyRstrip (pyLstrip s)

/-- Python `str.rstrip(c)` for a single character `c`. -/
def pyRstripChar (c : Char) (s : Str) : Str :=
  (s.reverse.dropWhile (fun d => d = c)).reverse

/-- Python `str.lower()` (ASCII part). -/
def pyLower (s : Str) : Str := s.map Char.toLower

/-- Python `str.split(sep)` for a one-character separator: `"".split(sep)`
is `[""]`, and separators delimit (possibly empty) fields. -/
def pySplit (sep : Char) : Str → List Str
  | [] => [[]]
  | c :: r =>
    if c = sep then [] :: pySplit sep r
    else
      match pySplit sep r with
      | [] => [[c]]
      | h :: t => (c :: h) :: t

/-- Python `sep.join(parts)` for a one-character separator. -/
def pyJoin (sep : Char) (parts : List Str) : Str :=
  List.intercalate [sep] parts

/-- `needle` starts `hay`. -/
def startsWith : Str → Str → Bool
  | [], _ => true
  | _ :: _, [] => false
  | c :: p, d :: s => c = d && startsWith p s

/-- Python's substring test `needle in hay` (contiguous substring). -/
def hasSub (needle : Str) : Str → Bool
  | [] => startsWith needle []
  | d :: s => startsWith needle (d :: s) || hasSub needle s

/-- One note record, as created by `new_note` and maintained by
`save_current_note` / `rename_note`: a `dict` with exactly the keys
`title`, `content`, `created`, `modified`. -/
structure Note where
  title : Str
  content : Str
  created : Nat
  modified : Nat
deriving DecidableEq, Repr

/-- `self.notes`: a Python dict from note id to note record, modelled as an
insertion-ordered association list with (invariantly) unique keys. -/
abbrev NotesMap := List (Str × Note)

/-- Dict lookup `d.get(k)`: the value at the first matching key. -/
def lookupKey (k : Str) : NotesMap → Option Note
  | [] => none
  | (k', v) :: m => if k' = k then some v else lookupKey k m

/-- Python `k in d`. -/
def hasKey (k : Str) (m : NotesMap) : Bool := (lookupKey k m).isSome

/-- `del d[k]` (removes the entry at the first matching key; dict keys are
unique so this is the whole entry). -/
def eraseKey (k : Str) : NotesMap → NotesMap
  | [] => []
  | (k', v) :: m => if k' = k then m else (k', v) :: eraseKey k m

/-- `d[k].update(...)` / `d[k]['field'] = ...`: modify the record stored at
`k` in place, keeping the dict order.  A missing key is a no-op (in the
program the key is always present at the call sites). -/
def updateKey (k : Str) (f : Note → Note) : NotesMap → NotesMap
  | [] => []
  | (k', v) :: m =>
    if k' = k then (k', f v) :: updateKey k f m else (k', v) :: updateKey k f m

/-- `d[k] = v`: replace in place when the key exists, else append (Python
dict insertion order). -/
def setKey (k : Str) (v : Note) (m : NotesMap) : NotesMap :=
  if hasKey k m then updateKey k (fun _ => v) m else m ++ [(k, v)]

/-- The fragment of JSON that `notes.json` uses: objects, strings, numbers. -/
inductive J where
  | jstr : Str → J
  | jnum : Nat → J
  | jobj : List (Str × J) → J

def kTitle : Str := ['t', 'i', 't', 'l', 'e']
def kContent : Str := ['c', 'o', 'n', 't', 'e', 'n', 't']
def kCreated : Str := ['c', 'r', 'e', 'a', 't', 'e', 'd']
def kModified : Str := ['m', 'o', 'd', 'i', 'f', 'i', 'e', 'd']

def untitled : Str := ['U', 'n', 't', 'i', 't', 'l', 'e', 'd']
def newNoteTitle : Str := ['N', 'e', 'w', ' ', 'N', 'o', 't', 'e']
def searchPlaceholder : Str := ['S', 'e', 'a', 'r', 'c', 'h', '.', '.', '.']

/-- JSON encoding of one note record (the shape `json.dump` writes). -/
def noteToJ (n : Note) : J :=
  .jobj [(kTitle, .jstr n.title), (kContent, .jstr n.content),
         (kCreated, .jnum n.created), (kModified, .jnum n.modified)]

/-- JSON encoding of the whole notes mapping: `json.dump(self.notes, f)`. -/
def notesToJ (m : NotesMap) : J :=
  .jobj (m.map (fun p => (p.1, noteToJ p.2)))

def jLookup (k : Str) : List (Str × J) → Option J
  | [] => none
  | (k', v) :: l => if k' = k then some v else jLookup k l

/-- Reading one note record back out of its JSON value. -/
def noteOfJ : J → Option Note
  | .jobj fs =>
    match jLookup kTitle fs, jLookup kContent fs,
          jLookup kCreated fs, jLookup kModified fs with
    | some (.jstr t), some (.jstr c), some (.jnum cr), some (.jnum mo) =>
      some ⟨t, c, cr, mo⟩
    | _, _, _, _ => none
  | _ => none

def decodeEntries : List (Str × J) → Option NotesMap
  | [] => some []
  | (k, j) :: l =>
    match noteOfJ j, decodeEntries l with
    | some n, some m => some ((k, n) :: m)
    | _, _ => none

/-- Reading the whole notes mapping back out of the file's JSON value. -/
def notesOfJ : J → Option NotesMap
  | .jobj fs => decodeEntries fs
  | _ => none

/-- The notes file as `load_notes` can observe it: missing, present but
raising on open/read/parse, or parsing to a JSON value. -/
inductive NotesFile where
  | absent
  | unreadable
  | stored : J → NotesFile

/-- `load_notes` (lines 478-486): returns the parsed JSON value (`{}` when
the file is missing or unreadable) paired with whether an error dialog was
shown (`messagebox.showerror` in the `except` branch). -/
def load_notes : NotesFile → J × Bool
  | .absent => (.jobj [], false)
  | .unreadable => (.jobj [], true)
  | .stored j => (j, false)

/-- The application state the claims are about: the in-memory notes dict,
`self.current_note_id`, and the notes file. -/
structure AppState where
  notes : NotesMap
  currentId : Option Str
  file : NotesFile

/-- `save_notes` (lines 488-493): write the whole mapping as JSON; if the
write raises (`wf`), show an error dialog (the returned flag) and change
nothing. -/
def save_notes (wf : Bool) (st : AppState) : AppState × Bool :=
  if wf then (st, true)
  else ({ st with file := .stored (notesToJ st.notes) }, false)

/-- `load_note` (lines 252-273): the part that affects the model state —
make `note_id` current when it exists. -/
def load_note (nid : Str) (st : AppState) : AppState :=
  if hasKey nid st.notes then { st with currentId := some nid } else st

/-- The title computation of `save_current_note` (lines 370-373):
`lines = content.split('\n'); title = lines[0][:50] if lines[0] else
'Untitled'; if not title.strip(): title = 'Untitled'`. -/
def titleOf (content : Str) : Str :=
  let first := (pySplit '\n' content).headI
  let t0 := if first ≠ [] then first.take 50 else untitled
  if pyStrip t0 = [] then untitled else t0

/-- The record update of `save_current_note` (lines 375-379):
`self.notes[cid].update({'title': ..., 'content': ..., 'modified': ...})`. -/
def savedUpdate (now : Nat) (content : Str) (n : Note) : Note :=
  { n with title := titleOf content, content := content, modified := now }

/-- `save_current_note` (lines 350-384).  `editor` is the editor text
(`text_editor.get("1.0", END)`), `now` the current time, `wf` whether the
file write raises. -/
def save_current_note (now : Nat) (wf : Bool) (editor : Str) (st : AppState) :
    AppState :=
  match st.currentId with
  | none => st
  | some cid =>
    let content := pyStrip editor
    if content = [] then
      if hasKey cid st.notes then
        (save_notes wf { st with notes := eraseKey cid st.notes }).1
      else st
    else if hasKey cid st.notes then
      let notes1 := updateKey cid (savedUpdate now content) st.notes
      (save_notes wf { st with notes := notes1 }).1
    else st

/-- `new_note` (lines 274-288).  `newId` is `datetime.now().strftime(...)`,
so it is derived from the current clock second; the record's `created` and
`modified` fields are the same instant. -/
def new_note (now : Nat) (newId : Str) (wf : Bool) (editor : Str)
    (st : AppState) : AppState :=
  let st1 := save_current_note now wf editor st
  let note : Note :=
    { title := newNoteTitle, content := [], created := now, modified := now }
  let st2 := { st1 with notes := setKey newId note st1.notes }
  load_note newId { st2 with currentId := some newId }

/-- Python `max(items, key=...)`: the first item with the greatest key,
folded over the non-empty list `x :: xs`. -/
def pyMax (key : Str × Note → Nat) (x : Str × Note) (xs : NotesMap) :
    Str × Note :=
  xs.foldl (fun b a => if key b < key a then a else b) x

/-- `bool(self.notes.get(cid, {}).get('content', '').strip())`. -/
def currentHasContent (st : AppState) (cid : Str) : Bool :=
  !(pyStrip (((lookupKey cid st.notes).map Note.content).getD [])).isEmpty

/-- `delete_note` (lines 290-308).  `confirm` is the answer to the
confirmation dialog (asked only when the note has content); `newId`,
`editor` feed the `new_note` call taken when the collection empties. -/
def delete_note (now : Nat) (newId : Str) (wf : Bool) (editor : Str)
    (confirm : Bool) (st : AppState) : AppState :=
  match st.currentId with
  | none => st
  | some cid =>
    if currentHasContent st cid && !confirm then st
    else if hasKey cid st.notes then
      let st2 := (save_notes wf { st with notes := eraseKey cid st.notes }).1
      match st2.notes with
      | [] => new_note now newId wf editor st2
      | x :: xs => load_note (pyMax (fun p => p.2.modified) x xs).1 st2
    else st

/-- `rename_note` (lines 386-415).  `selectedId` is the listbox selection,
`dialog` the string returned by `simpledialog.askstring` (`none` =
cancelled), `editorRaw` the current editor text. -/
def rename_note (now : Nat) (wf : Bool) (selectedId : Str)
    (dialog : Option Str) (editorRaw : Str) (st : AppState) : AppState :=
  match dialog with
  | none => st
  | some t =>
    if t = [] ∨ pyStrip t = [] then st
    else
      let nt := pyStrip t
      if st.currentId = some selectedId then
        let lines := pySplit '\n' editorRaw
        let content := pyRstripChar '\n' (pyJoin '\n' (lines.set 0 nt))
        save_current_note now wf content st
      else
        let notes1 := updateKey selectedId
          (fun n => { n with title := nt.take 50 }) st.notes
        (save_notes wf { st with notes := notes1 }).1

/-- The startup selection (NoteApp.__init__ lines 37-44): keep the
remembered `last_note_id` when it is a key of the loaded collection,
otherwise select the most recently modified note; `none` means the
collection was empty and `new_note` runs instead. -/
def initCurrent (lastId : Option Str) (notes : NotesMap) : Option Str :=
  match notes with
  | [] => none
  | x :: xs =>
    match lastId with
    | some l =>
      if hasKey l notes then some l
      else some (pyMax (fun p => p.2.modified) x xs).1
    | none => some (pyMax (fun p => p.2.modified) x xs).1

/-- The comparison `filter_notes` sorts with: `modified` descending
(`sorted(..., key=lambda x: x[1]['modified'], reverse=True)`). -/
def modDesc (a b : Str × Note) : Bool := decide (b.2.modified ≤ a.2.modified)

def sortByModified (m : NotesMap) : NotesMap := m.mergeSort modDesc

/-- The filter predicate of `filter_notes`: the (lowercased) term occurs in
the lowercased title or the lowercased content. -/
def matchesTerm (term : Str) (p : Str × Note) : Bool :=
  hasSub term (pyLower p.2.title) || hasSub term (pyLower p.2.content)

/-- `filter_notes` (lines 213-231) composed with `_rebuild_listbox`: the
list of notes displayed, in display order, for search-box text `searchVar`.
The lowercased text is compared against the lowercased placeholder, an
empty result shows everything. -/
def filter_notes (searchVar : Str) (notes : NotesMap) : NotesMap :=
  let term0 := pyLower searchVar
  let term := if term0 = pyLower searchPlaceholder then [] else term0
  let sorted := sortByModified notes
  if term.isEmpty then sorted else sorted.filter (matchesTerm term)

/-- The debounce delay of `on_text_modified`: `self.root.after(1000, ...)`. -/
def autoSaveDelay : Nat := 1000

/-- `on_text_modified` (lines 310-314) acting on the pending-timer state:
whatever was scheduled is cancelled (`after_cancel`) and `auto_save` is
scheduled `delay` ms after the modification at time `t`. -/
def on_text_modified (delay t : Nat) (pending : Option Nat) : Option Nat :=
  match pending with
  | some _ => some (t + delay)
  | none => some (t + delay)

/-- The tkinter event loop restricted to the auto-save timer: given the
pending timer and the (increasing) times of the remaining modification
events (those with `edit_modified()` true), return the times at which
`auto_save` — and hence `save_current_note` — fires.  A pending timer fires
when its time arrives strictly before the next modification; a trailing
pending timer fires once the trace ends. -/
def runAutoSave (delay : Nat) : Option Nat → List Nat → List Nat
  | none, [] => []
  | some f, [] => [f]
  | none, t :: ts => runAutoSave delay (on_text_modified delay t none) ts
  | some f, t :: ts =>
    if f < t then f :: runAutoSave delay (on_text_modified delay t (some f)) ts
    else runAutoSave delay (on_text_modified delay t (some f)) ts

/-- The titles-are-short invariant of C10. -/
def titlesOk (m : NotesMap) : Prop := ∀ p ∈ m, p.2.title.length ≤ 50

/-! ## Basic lemmas about the string model -/

theorem dropWhile_suffix_ex (p : Char → Bool) (l : Str) :
    ∃ t, t ++ l.dropWhile p = l := by
  induction l with
  | nil => exact ⟨[], rfl⟩
  | cons c u ih =>
    by_cases h : p c = true
    · obtain ⟨t, ht⟩ := ih
      exact ⟨c :: t, by simp [List.dropWhile_cons, h, ht]⟩
    · exact ⟨[], by simp [List.dropWhile_cons, h]⟩

theorem pyRstrip_append_ex (l : Str) : ∃ t, pyRstrip l ++ t = l := by
  obtain ⟨t, ht⟩ := dropWhile_suffix_ex pyIsSpace l.reverse
  refine ⟨t.reverse, ?_⟩
  have h2 := congrArg List.reverse ht
  simpa [pyRstrip, List.reverse_append] using h2

theorem pyLstrip_head_not_space (l : Str) (h : pyLstrip l ≠ []) :
    pyIsSpace ((pyLstrip l).headI) = false := by
  induction l with
  | nil => exact absurd rfl h
  | cons c u ih =>
    by_cases hc : pyIsSpace c = true
    · have he : pyLstrip (c :: u) = pyLstrip u := by
        simp [pyLstrip, List.dropWhile_cons, hc]
      rw [he] at h ⊢
      exact ih h
    · have he : pyLstrip (c :: u) = c :: u := by
        simp [pyLstrip, List.dropWhile_cons, hc]
      rw [he]
      simpa using hc

theorem pyStrip_cons_not_space (l : Str) (h : pyStrip l ≠ []) :
    ∃ c u, pyStrip l = c :: u ∧ pyIsSpace c = false := by
  obtain ⟨t, ht⟩ := pyRstrip_append_ex (pyLstrip l)
  match hs : pyStrip l with
  | [] => exact absurd hs h
  | c :: u =>
    refine ⟨c, u, rfl, ?_⟩
    have hl : pyLstrip l = c :: (u ++ t) := by
      have : pyStrip l ++ t = pyLstrip l := ht
      rw [hs] at this
      simpa using this.symm
    have hne : pyLstrip l ≠ [] := by simp [hl]
    have := pyLstrip_head_not_space l hne
    rwa [hl] at this

theorem dropWhile_append_single_ne (p : Char → Bool) (c : Char)
    (hc : p c = false) (xs : Str) : (xs ++ [c]).dropWhile p ≠ [] := by
  induction xs with
  | nil => simp [List.dropWhile_cons, hc]
  | cons x xs ih =>
    by_cases hx : p x = true
    · simpa [List.dropWhile_cons, hx] using ih
    · simp [List.dropWhile_cons, hx]

theorem pyStrip_ne_of_head (c : Char) (u : Str) (hc : pyIsSpace c = false) :
    pyStrip (c :: u) ≠ [] := by
  have h1 : pyLstrip (c :: u) = c :: u := by
    simp [pyLstrip, List.dropWhile_cons, hc]
  have h2 : (c :: u).reverse = u.reverse ++ [c] := by simp
  intro h
  rw [pyStrip, h1, pyRstrip, h2] at h
  exact dropWhile_append_single_ne pyIsSpace c hc u.reverse
    (by simpa [List.reverse_eq_nil_iff] using h)

theorem pySplit_ne_nil (sep : Char) (l : Str) : pySplit sep l ≠ [] := by
  cases l with
  | nil => simp [pySplit]
  | cons c r =>
    by_cases h : c = sep
    · simp [pySplit, h]
    · simp only [pySplit, h, if_false]
      match pySplit sep r with
      | [] => simp
      | h' :: t => simp

theorem headI_pySplit_cons (sep c : Char) (l : Str) (h : c ≠ sep) :
    (pySplit sep (c :: l)).headI = c :: (pySplit sep l).headI := by
  have hne := pySplit_ne_nil sep l
  simp only [pySplit, h, if_false]
  match hm : pySplit sep l with
  | [] => exact absurd hm hne
  | h' :: t => simp

/-! ## Lemmas about the dict model -/

theorem lookupKey_updateKey_self (k : Str) (f : Note → Note) (m : NotesMap) :
    lookupKey k (updateKey k f m) = (lookupKey k m).map f := by
  induction m with
  | nil => rfl
  | cons p m ih =>
    obtain ⟨k', v⟩ := p
    by_cases h : k' = k <;> simp [updateKey, lookupKey, h, ih]

theorem lookupKey_updateKey_ne (k2 k : Str) (f : Note → Note) (m : NotesMap)
    (h : k2 ≠ k) : lookupKey k2 (updateKey k f m) = lookupKey k2 m := by
  induction m with
  | nil => rfl
  | cons p m ih =>
    obtain ⟨k', v⟩ := p
    by_cases h1 : k' = k
    · have h2 : ¬ (k = k2) := fun e => h e.symm
      simp [updateKey, lookupKey, h1, h2, ih]
    · simp only [updateKey, if_neg h1]
      by_cases h2 : k' = k2 <;> simp [lookupKey, h2, ih]

theorem lookupKey_eq_none_of_not_mem (k : Str) (m : NotesMap)
    (h : k ∉ m.map Prod.fst) : lookupKey k m = none := by
  induction m with
  | nil => rfl
  | cons p m ih =>
    obtain ⟨k', v⟩ := p
    simp only [List.map_cons, List.mem_cons] at h
    push_neg at h
    have h2 : ¬ (k' = k) := fun e => h.1 e.symm
    simp [lookupKey, h2, ih h.2]

theorem eraseKey_of_not_hasKey (k : Str) (m : NotesMap)
    (h : hasKey k m = false) : eraseKey k m = m := by
  induction m with
  | nil => rfl
  | cons p m ih =>
    obtain ⟨k', v⟩ := p
    by_cases h1 : k' = k
    · simp [hasKey, lookupKey, h1] at h
    · simp only [hasKey, lookupKey, h1, if_false] at h
      simp [eraseKey, h1, ih h]

theorem lookupKey_eraseKey_self (k : Str) (m : NotesMap)
    (hnd : (m.map Prod.fst).Nodup) : lookupKey k (eraseKey k m) = none := by
  induction m with
  | nil => rfl
  | cons p m ih =>
    obtain ⟨k', v⟩ := p
    simp only [List.map_cons, List.nodup_cons] at hnd
    by_cases h1 : k' = k
    · subst h1
      simp only [eraseKey, if_pos rfl]
      exact lookupKey_eq_none_of_not_mem k' m hnd.1
    · simp [eraseKey, h1, lookupKey, ih hnd.2]

theorem save_notes_fst_notes (wf : Bool) (st : AppState) :
    ((save_notes wf st).1).notes = st.notes := by
  cases wf <;> simp [save_notes]

theorem save_notes_fst_currentId (wf : Bool) (st : AppState) :
    ((save_notes wf st).1).currentId = st.currentId := by
  cases wf <;> simp [save_notes]

/-! ## The title computation -/

theorem titleOf_of_head (c : Char) (u : Str) (hcsp : pyIsSpace c = false) :
    titleOf (c :: u) = ((pySplit '\n' (c :: u)).headI).take 50 := by
  have hnl : pyIsSpace '\n' = true := by decide
  have hcn : c ≠ '\n' := by
    intro e
    rw [e, hnl] at hcsp
    exact Bool.noConfusion hcsp
  have hfe := headI_pySplit_cons '\n' c u hcn
  have htake : ((c :: (pySplit '\n' u).headI : Str)).take 50 =
      c :: ((pySplit '\n' u).headI.take 49) := rfl
  simp only [titleOf, hfe]
  have h1 : (c :: (pySplit '\n' u).headI : Str) ≠ [] := by simp
  rw [if_pos h1, htake,
    if_neg (pyStrip_ne_of_head c ((pySplit '\n' u).headI.take 49) hcsp)]

theorem titleOf_length (content : Str) : (titleOf content).length ≤ 50 := by
  have hu : untitled.length ≤ 50 := by decide
  simp only [titleOf]
  by_cases h1 : (pySplit '\n' content).headI ≠ []
  · rw [if_pos h1]
    by_cases h2 : pyStrip ((pySplit '\n' content).headI.take 50) = []
    · rw [if_pos h2]; exact hu
    · rw [if_neg h2]
      simp [List.length_take]
  · rw [if_neg h1]
    simpa using hu

/-! ## Unfolding `save_current_note` -/

theorem save_current_note_of_nonempty (now : Nat) (wf : Bool) (ed : Str)
    (st : AppState) (cid : Str) (hc : st.currentId = some cid)
    (hk : hasKey cid st.notes = true) (hne : pyStrip ed ≠ []) :
    save_current_note now wf ed st =
      (save_notes wf
        { st with
            notes := updateKey cid (savedUpdate now (pyStrip ed)) st.notes }).1
      := by
  simp only [save_current_note, hc]
  rw [if_neg hne, if_pos hk]

theorem save_current_note_of_empty (now : Nat) (wf : Bool) (ed : Str)
    (st : AppState) (cid : Str) (hc : st.currentId = some cid)
    (he : pyStrip ed = []) :
    save_current_note now wf ed st =
      if hasKey cid st.notes then
        (save_notes wf { st with notes := eraseKey cid st.notes }).1
      else st := by
  simp only [save_current_note, hc]
  rw [if_pos he]

/-- Claim C1: for every save of the current note by `save_current_note`
where the note exists and the stripped editor content is non-empty, the
stored title is the first 50 characters of the first line of the content,
and if the first line were empty or all-whitespace the stored title would be
"Untitled" (the stripped content in fact always starts with a
non-whitespace character, so that case cannot arise). -/
theorem C1_saved_title (now : Nat) (wf : Bool) (ed : Str) (st : AppState)
    (cid : Str) (hc : st.currentId = some cid)
    (hk : hasKey cid st.notes = true) (hne : pyStrip ed ≠ []) :
    ∃ n, lookupKey cid (save_current_note now wf ed st).notes = some n ∧
      n.title = ((pySplit '\n' (pyStrip ed)).headI).take 50 ∧
      ((∀ c ∈ (pySplit '\n' (pyStrip ed)).headI, pyIsSpace c = true) →
        n.title = untitled) := by
  obtain ⟨c, u, hcu, hcsp⟩ := pyStrip_cons_not_space ed hne
  obtain ⟨n0, hn0⟩ := Option.isSome_iff_exists.mp (by simpa [hasKey] using hk)
  rw [save_current_note_of_nonempty now wf ed st cid hc hk hne,
    save_notes_fst_notes]
  refine ⟨_, by rw [lookupKey_updateKey_self, hn0]; rfl, ?_, ?_⟩
  · show titleOf (pyStrip ed) = _
    rw [hcu, titleOf_of_head c u hcsp]
  · intro hall
    exfalso
    have hmem : c ∈ (pySplit '\n' (pyStrip ed)).headI := by
      rw [hcu, headI_pySplit_cons '\n' c u]
      · exact List.mem_cons_self c _
      · intro e
        rw [e] at hcsp
        exact Bool.noConfusion ((by decide : pyIsSpace '\n' = true) ▸ hcsp)
    rw [hall c hmem] at hcsp
    exact Bool.noConfusion hcsp

/-- Witness for C1 at a concrete state. -/
theorem C1_saved_title_wit :
    ∃ n, lookupKey ['a']
        (save_current_note 3 false ['h', 'i']
          ⟨[(['a'], ⟨['x'], ['y'], 0, 0⟩)], some ['a'], .absent⟩).notes
        = some n ∧
      n.title = ((pySplit '\n' (pyStrip ['h', 'i'])).headI).take 50 ∧
      ((∀ c ∈ (pySplit '\n' (pyStrip ['h', 'i'])).headI, pyIsSpace c = true) →
        n.title = untitled) :=
  C1_saved_title 3 false ['h', 'i'] _ ['a'] rfl (by decide) (by decide)

/-- Claim C8: every note record carries a `created` and a `modified`
timestamp (fields of `Note`, both set by `new_note`), and a save of an
existing non-empty note only changes `title`, `content` and `modified` of
the current note: its `created` field and every other note's record are
unchanged. -/
theorem C8_frame (now : Nat) (wf : Bool) (ed : Str) (st : AppState)
    (cid : Str) (hc : st.currentId = some cid)
    (hk : hasKey cid st.notes = true) (hne : pyStrip ed ≠ []) :
    (∀ k, k ≠ cid →
      lookupKey k (save_current_note now wf ed st).notes =
        lookupKey k st.notes) ∧
    ∃ n n2, lookupKey cid st.notes = some n ∧
      lookupKey cid (save_current_note now wf ed st).notes = some n2 ∧
      n2.created = n.created ∧ n2.title = titleOf (pyStrip ed) ∧
      n2.content = pyStrip ed ∧ n2.modified = now := by
  rw [save_current_note_of_nonempty now wf ed st cid hc hk hne,
    save_notes_fst_notes]
  obtain ⟨n0, hn0⟩ := Option.isSome_iff_exists.mp (by simpa [hasKey] using hk)
  constructor
  · intro k hkne
    exact lookupKey_updateKey_ne k cid _ st.notes hkne
  · exact ⟨n0, savedUpdate now (pyStrip ed) n0, hn0,
      by rw [lookupKey_updateKey_self, hn0]; rfl, rfl, rfl, rfl, rfl⟩

/-- Witness for C8 at a concrete two-note state. -/
theorem C8_frame_wit :
    (∀ k, k ≠ ['a'] →
      lookupKey k (save_current_note 9 false ['h']
          ⟨[(['a'], ⟨['x'], ['y'], 4, 5⟩), (['b'], ⟨['p'], ['q'], 6, 7⟩)],
           some ['a'], .absent⟩).notes =
        lookupKey k [(['a'], ⟨['x'], ['y'], 4, 5⟩),
                     (['b'], ⟨['p'], ['q'], 6, 7⟩)]) ∧
    ∃ n n2, lookupKey ['a'] [(['a'], (⟨['x'], ['y'], 4, 5⟩ : Note)),
                 (['b'], ⟨['p'], ['q'], 6, 7⟩)] = some n ∧
      lookupKey ['a'] (save_current_note 9 false ['h']
          ⟨[(['a'], ⟨['x'], ['y'], 4, 5⟩), (['b'], ⟨['p'], ['q'], 6, 7⟩)],
           some ['a'], .absent⟩).notes = some n2 ∧
      n2.created = n.created ∧ n2.title = titleOf (pyStrip ['h']) ∧
      n2.content = pyStrip ['h'] ∧ n2.modified = 9 :=
  C8_frame 9 false ['h'] _ ['a'] rfl (by decide) (by decide)

/-- Claim C9: when the editor content strips to the empty string,
`save_current_note` stores nothing: the current note's entry (if any) is
removed, and when it was present and the write succeeds the notes file is
rewritten without it. -/
theorem C9_no_empty (now : Nat) (wf : Bool) (ed : Str) (st : AppState)
    (cid : Str) (hc : st.currentId = some cid) (he : pyStrip ed = [])
    (hnd : (st.notes.map Prod.fst).Nodup) :
    (save_current_note now wf ed st).notes = eraseKey cid st.notes ∧
    lookupKey cid (save_current_note now wf ed st).notes = none ∧
    (hasKey cid st.notes = true → wf = false →
      (save_current_note now wf ed st).file =
        .stored (notesToJ (eraseKey cid st.notes))) := by
  rw [save_current_note_of_empty now wf ed st cid hc he]
  by_cases hk : hasKey cid st.notes = true
  · rw [if_pos hk]
    refine ⟨save_notes_fst_notes wf _, ?_, ?_⟩
    · rw [save_notes_fst_notes]
      exact lookupKey_eraseKey_self cid st.notes hnd
    · intro _ hwf
      subst hwf
      rfl
  · rw [if_neg hk]
    have hkf : hasKey cid st.notes = false := by
      cases hb : hasKey cid st.notes
      · rfl
      · exact absurd hb hk
    refine ⟨(eraseKey_of_not_hasKey cid st.notes hkf).symm, ?_, ?_⟩
    · cases hl : lookupKey cid st.notes with
      | none => rfl
      | some v =>
        rw [hasKey, hl] at hkf
        exact Bool.noConfusion hkf
    · intro hkt _
      rw [hkf] at hkt
      exact Bool.noConfusion hkt

/-- Witness for C9 at a concrete state whose editor holds only blanks. -/
theorem C9_no_empty_wit :
    (save_current_note 0 false [' ', '\n']
        ⟨[(['a'], ⟨['x'], ['y'], 0, 0⟩)], some ['a'], .absent⟩).notes =
      eraseKey ['a'] [(['a'], ⟨['x'], ['y'], 0, 0⟩)] ∧
    lookupKey ['a'] (save_current_note 0 false [' ', '\n']
        ⟨[(['a'], ⟨['x'], ['y'], 0, 0⟩)], some ['a'], .absent⟩).notes = none ∧
    (hasKey ['a'] [(['a'], (⟨['x'], ['y'], 0, 0⟩ : Note))] = true →
      false = false →
      (save_current_note 0 false [' ', '\n']
          ⟨[(['a'], ⟨['x'], ['y'], 0, 0⟩)], some ['a'], .absent⟩).file =
        .stored (notesToJ (eraseKey ['a'] [(['a'], ⟨['x'], ['y'], 0, 0⟩)]))) :=
  C9_no_empty 0 false [' ', '\n'] _ ['a'] rfl (by decide) (by decide)

/-! ## More dict lemmas, and unfoldings used by several operations -/

theorem lookupKey_eq_none_of_hasKey_false (k : Str) (m : NotesMap)
    (h : hasKey k m = false) : lookupKey k m = none := by
  cases hl : lookupKey k m with
  | none => rfl
  | some v =>
    rw [hasKey, hl] at h
    exact Bool.noConfusion h

theorem lookupKey_append_of_ne (k n : Str) (v : Note) (m : NotesMap)
    (h : k ≠ n) : lookupKey k (m ++ [(n, v)]) = lookupKey k m := by
  induction m with
  | nil =>
    have h2 : ¬ (n = k) := fun e => h e.symm
    simp [lookupKey, h2]
  | cons p m ih =>
    obtain ⟨k', w⟩ := p
    by_cases h1 : k' = k <;> simp [lookupKey, h1, ih]

theorem lookupKey_append_self (n : Str) (v : Note) (m : NotesMap)
    (h : lookupKey n m = none) : lookupKey n (m ++ [(n, v)]) = some v := by
  induction m with
  | nil => simp [lookupKey]
  | cons p m ih =>
    obtain ⟨k', w⟩ := p
    by_cases h1 : k' = n
    · rw [lookupKey, if_pos h1] at h
      exact Option.noConfusion h
    · rw [lookupKey, if_neg h1] at h
      simp [lookupKey, h1, ih h]

theorem load_note_notes (nid : Str) (st : AppState) :
    (load_note nid st).notes = st.notes := by
  rw [load_note]
  split <;> rfl

theorem new_note_notes (now : Nat) (nid : Str) (wf : Bool) (ed : Str)
    (st : AppState) :
    (new_note now nid wf ed st).notes =
      setKey nid ⟨newNoteTitle, [], now, now⟩
        (save_current_note now wf ed st).notes := by
  simp only [new_note, load_note_notes]

theorem save_current_note_of_none (now : Nat) (wf : Bool) (ed : Str)
    (st : AppState) (hc : st.currentId = none) :
    save_current_note now wf ed st = st := by
  simp only [save_current_note, hc]

theorem save_current_note_of_no_note (now : Nat) (wf : Bool) (ed : Str)
    (st : AppState) (cid : Str) (hc : st.currentId = some cid)
    (hne : pyStrip ed ≠ []) (hk : hasKey cid st.notes = false) :
    save_current_note now wf ed st = st := by
  simp only [save_current_note, hc]
  rw [if_neg hne, if_neg (by rw [hk]; exact Bool.noConfusion)]

/-- Counterexample to claim C5 as stated: `new_note`'s identifier is the
wall-clock second (`datetime.now().strftime("%Y%m%d_%H%M%S")`), so when a
note is created while the collection already holds that identifier — two
creations within the same second — the dict assignment replaces the
existing record instead of adding a new one. -/
theorem C5_same_id_overwrites :
    lookupKey ['i'] [(['i'], (⟨['o'], ['o'], 0, 0⟩ : Note))] =
      some ⟨['o'], ['o'], 0, 0⟩ ∧
    (new_note 1 ['i'] false []
        ⟨[(['i'], ⟨['o'], ['o'], 0, 0⟩)], none, .absent⟩).notes =
      [(['i'], ⟨newNoteTitle, [], 1, 1⟩)] ∧
    (⟨['o'], ['o'], 0, 0⟩ : Note) ∉
      ((new_note 1 ['i'] false []
        ⟨[(['i'], ⟨['o'], ['o'], 0, 0⟩)], none, .absent⟩).notes.map
          Prod.snd) := by
  decide

/-- Claim C5 (amended): `new_note` first auto-saves the current editor
content and then inserts a record under the time-derived identifier.
Provided that identifier is not already a key of the collection (creations
more than a second apart), the insertion adds a fresh record and leaves the
lookup of every other identifier unchanged; identifier collision within one
second replaces the existing record (`C5_same_id_overwrites`). -/
theorem C5_insert_fresh (now : Nat) (nid : Str) (wf : Bool) (ed : Str)
    (st : AppState)
    (h : hasKey nid (save_current_note now wf ed st).notes = false) :
    lookupKey nid (new_note now nid wf ed st).notes =
      some ⟨newNoteTitle, [], now, now⟩ ∧
    ∀ k, k ≠ nid → lookupKey k (new_note now nid wf ed st).notes =
      lookupKey k (save_current_note now wf ed st).notes := by
  have hset : setKey nid ⟨newNoteTitle, [], now, now⟩
      (save_current_note now wf ed st).notes =
      (save_current_note now wf ed st).notes ++
        [(nid, ⟨newNoteTitle, [], now, now⟩)] := by
    rw [setKey, if_neg (by rw [h]; exact Bool.noConfusion)]
  constructor
  · rw [new_note_notes, hset]
    exact lookupKey_append_self nid _ _
      (lookupKey_eq_none_of_hasKey_false nid _ h)
  · intro k hk
    rw [new_note_notes, hset]
    exact lookupKey_append_of_ne k nid _ _ hk

/-- Witness for the amended C5 at a concrete state. -/
theorem C5_insert_fresh_wit :
    lookupKey ['b'] (new_note 2 ['b'] false []
        ⟨[(['a'], ⟨['t'], ['c'], 0, 0⟩)], none, .absent⟩).notes =
      some ⟨newNoteTitle, [], 2, 2⟩ ∧
    ∀ k, k ≠ ['b'] →
      lookupKey k (new_note 2 ['b'] false []
          ⟨[(['a'], ⟨['t'], ['c'], 0, 0⟩)], none, .absent⟩).notes =
        lookupKey k (save_current_note 2 false []
          ⟨[(['a'], ⟨['t'], ['c'], 0, 0⟩)], none, .absent⟩).notes :=
  C5_insert_fresh 2 ['b'] false [] _ (by decide)

/-! ## The title-length invariant (C10) -/

theorem mem_eraseKey (k : Str) (m : NotesMap) (p : Str × Note)
    (h : p ∈ eraseKey k m) : p ∈ m := by
  induction m with
  | nil => exact absurd h (List.not_mem_nil p)
  | cons q m ih =>
    obtain ⟨k', v⟩ := q
    by_cases h1 : k' = k
    · rw [eraseKey, if_pos h1] at h
      exact List.mem_cons_of_mem _ h
    · rw [eraseKey, if_neg h1] at h
      rcases List.mem_cons.mp h with h2 | h2
      · exact List.mem_cons.mpr (Or.inl h2)
      · exact List.mem_cons_of_mem _ (ih h2)

theorem titlesOk_eraseKey (k : Str) (m : NotesMap) (h : titlesOk m) :
    titlesOk (eraseKey k m) :=
  fun p hp => h p (mem_eraseKey k m p hp)

theorem titlesOk_updateKey (k : Str) (f : Note → Note) (m : NotesMap)
    (h : titlesOk m) (hf : ∀ n, ((f n).title).length ≤ 50) :
    titlesOk (updateKey k f m) := by
  induction m with
  | nil => exact h
  | cons q m ih =>
    obtain ⟨k', v⟩ := q
    have hm : titlesOk m := fun p hp => h p (List.mem_cons_of_mem _ hp)
    by_cases h1 : k' = k
    · rw [updateKey, if_pos h1]
      intro p hp
      rcases List.mem_cons.mp hp with h2 | h2
      · rw [h2]
        exact hf v
      · exact ih hm p h2
    · rw [updateKey, if_neg h1]
      intro p hp
      rcases List.mem_cons.mp hp with h2 | h2
      · rw [h2]
        exact h (k', v) (List.mem_cons_self _ _)
      · exact ih hm p h2

theorem titlesOk_setKey (k : Str) (v : Note) (m : NotesMap)
    (h : titlesOk m) (hv : (v.title).length ≤ 50) : titlesOk (setKey k v m) := by
  rw [setKey]
  by_cases h1 : hasKey k m = true
  · rw [if_pos h1]
    exact titlesOk_updateKey k (fun _ => v) m h (fun _ => hv)
  · rw [if_neg h1]
    intro p hp
    rcases List.mem_append.mp hp with h2 | h2
    · exact h p h2
    · rw [List.mem_singleton.mp h2]
      exact hv

theorem titlesOk_save_current_note (now : Nat) (wf : Bool) (ed : Str)
    (st : AppState) (h : titlesOk st.notes) :
    titlesOk ((save_current_note now wf ed st).notes) := by
  cases hc : st.currentId with
  | none => rw [save_current_note_of_none now wf ed st hc]; exact h
  | some cid =>
    by_cases he : pyStrip ed = []
    · rw [save_current_note_of_empty now wf ed st cid hc he]
      by_cases hk : hasKey cid st.notes = true
      · rw [if_pos hk, save_notes_fst_notes]
        exact titlesOk_eraseKey cid st.notes h
      · rw [if_neg hk]
        exact h
    · by_cases hk : hasKey cid st.notes = true
      · rw [save_current_note_of_nonempty now wf ed st cid hc hk he,
          save_notes_fst_notes]
        exact titlesOk_updateKey cid _ st.notes h
          (fun n => titleOf_length (pyStrip ed))
      · rw [save_current_note_of_no_note now wf ed st cid hc he
          (by cases hb : hasKey cid st.notes
              · rfl
              · exact absurd hb hk)]
        exact h

theorem titlesOk_new_note (now : Nat) (nid : Str) (wf : Bool) (ed : Str)
    (st : AppState) (h : titlesOk st.notes) :
    titlesOk ((new_note now nid wf ed st).notes) := by
  rw [new_note_notes]
  exact titlesOk_setKey nid _ _
    (titlesOk_save_current_note now wf ed st h)
    (show newNoteTitle.length ≤ 50 by decide)

theorem titlesOk_rename_note (now : Nat) (wf : Bool) (sel : Str)
    (dlg : Option Str) (ed : Str) (st : AppState) (h : titlesOk st.notes) :
    titlesOk ((rename_note now wf sel dlg ed st).notes) := by
  cases dlg with
  | none => exact h
  | some t =>
    rw [rename_note]
    by_cases h1 : t = [] ∨ pyStrip t = []
    · rw [if_pos h1]
      exact h
    · rw [if_neg h1]
      by_cases h2 : st.currentId = some sel
      · rw [if_pos h2]
        exact titlesOk_save_current_note now wf _ st h
      · rw [if_neg h2]
        simp only [save_notes_fst_notes]
        exact titlesOk_updateKey sel _ st.notes h
          (fun n => by simp [List.length_take])

/-- Claim C10: every title the application's own operations write into the
collection is at most 50 characters: `save_current_note` truncates the
first line to 50 characters (or writes the 8-character "Untitled"),
`rename_note` of a non-current note truncates the entered title to 50
characters, renaming the current note routes through `save_current_note`,
and `new_note` writes the 8-character "New Note" — so each operation
preserves the titles-at-most-50 invariant. -/
theorem C10_title_bound :
    (∀ now wf ed st, titlesOk st.notes →
      titlesOk ((save_current_note now wf ed st).notes)) ∧
    (∀ now nid wf ed st, titlesOk st.notes →
      titlesOk ((new_note now nid wf ed st).notes)) ∧
    (∀ now wf sel dlg ed st, titlesOk st.notes →
      titlesOk ((rename_note now wf sel dlg ed st).notes)) :=
  ⟨fun now wf ed st h => titlesOk_save_current_note now wf ed st h,
   fun now nid wf ed st h => titlesOk_new_note now nid wf ed st h,
   fun now wf sel dlg ed st h => titlesOk_rename_note now wf sel dlg ed st h⟩

/-- Witness for C10 at concrete states (a long first line for the save, a
long dialog entry for the rename). -/
theorem C10_title_bound_wit :
    titlesOk ((save_current_note 1 false (List.replicate 80 'x')
      ⟨[(['a'], ⟨['t'], ['c'], 0, 0⟩)], some ['a'], .absent⟩).notes) ∧
    titlesOk ((new_note 1 ['b'] false ['h']
      ⟨[(['a'], ⟨['t'], ['c'], 0, 0⟩)], some ['a'], .absent⟩).notes) ∧
    titlesOk ((rename_note 1 false ['a'] (some (List.replicate 80 'y')) ['h']
      ⟨[(['a'], ⟨['t'], ['c'], 0, 0⟩)], none, .absent⟩).notes) :=
  ⟨C10_title_bound.1 1 false (List.replicate 80 'x') _
     (by unfold titlesOk; decide),
   C10_title_bound.2.1 1 ['b'] false ['h'] _ (by unfold titlesOk; decide),
   C10_title_bound.2.2 1 false ['a'] (some (List.replicate 80 'y')) ['h'] _
     (by unfold titlesOk; decide)⟩

/-! ## Python `max(..., key=...)` (C3) -/

theorem pyMax_mem (key : Str × Note → Nat) (x : Str × Note) (xs : NotesMap) :
    pyMax key x xs ∈ x :: xs := by
  induction xs generalizing x with
  | nil => exact List.mem_singleton.mpr rfl
  | cons a xs ih =>
    have hstep : pyMax key x (a :: xs) =
        pyMax key (if key x < key a then a else x) xs := by
      rw [pyMax, List.foldl_cons]
      rfl
    rw [hstep]
    rcases List.mem_cons.mp (ih (if key x < key a then a else x)) with h | h
    · rw [h]
      by_cases hx : key x < key a
      · rw [if_pos hx]
        exact List.mem_cons_of_mem _ (List.mem_cons_self _ _)
      · rw [if_neg hx]
        exact List.mem_cons_self _ _
    · exact List.mem_cons_of_mem _ (List.mem_cons_of_mem _ h)

theorem pyMax_ge (key : Str × Note → Nat) (x : Str × Note) (xs : NotesMap) :
    ∀ p ∈ x :: xs, key p ≤ key (pyMax key x xs) := by
  induction xs generalizing x with
  | nil =>
    intro p hp
    rw [List.mem_singleton.mp hp]
    exact le_refl _
  | cons a xs ih =>
    intro p hp
    have hstep : pyMax key x (a :: xs) =
        pyMax key (if key x < key a then a else x) xs := by
      rw [pyMax, List.foldl_cons]
      rfl
    have hxy : key x ≤ key (if key x < key a then a else x) := by
      by_cases hx : key x < key a
      · rw [if_pos hx]
        exact le_of_lt hx
      · rw [if_neg hx]
    have hay : key a ≤ key (if key x < key a then a else x) := by
      by_cases hx : key x < key a
      · rw [if_pos hx]
      · rw [if_neg hx]
        exact le_of_not_lt hx
    have hymax := ih (if key x < key a then a else x) _ (List.mem_cons_self _ _)
    rw [hstep]
    rcases List.mem_cons.mp hp with h | h
    · rw [h]
      exact le_trans hxy hymax
    · rcases List.mem_cons.mp h with h2 | h2
      · rw [h2]
        exact le_trans hay hymax
      · exact ih _ p (List.mem_cons_of_mem _ h2)

theorem hasKey_of_mem (k : Str) (v : Note) (m : NotesMap)
    (h : (k, v) ∈ m) : hasKey k m = true := by
  induction m with
  | nil => exact absurd h (List.not_mem_nil _)
  | cons q m ih =>
    obtain ⟨k', w⟩ := q
    by_cases h1 : k' = k
    · simp [hasKey, lookupKey, h1]
    · rcases List.mem_cons.mp h with h2 | h2
      · injection h2 with e1 e2
        exact absurd e1.symm h1
      · simp only [hasKey, lookupKey, h1, if_false]
        exact ih h2

theorem load_note_currentId_of_hasKey (nid : Str) (st : AppState)
    (h : hasKey nid st.notes = true) :
    (load_note nid st).currentId = some nid := by
  rw [load_note, if_pos h]

theorem delete_note_unfold (now : Nat) (newId : Str) (wf : Bool) (ed : Str)
    (confirm : Bool) (st : AppState) (cid : Str) (x : Str × Note)
    (xs : NotesMap) (hc : st.currentId = some cid)
    (hg : currentHasContent st cid = true → confirm = true)
    (hk : hasKey cid st.notes = true) (he : eraseKey cid st.notes = x :: xs) :
    delete_note now newId wf ed confirm st =
      load_note (pyMax (fun p => p.2.modified) x xs).1
        (save_notes wf { st with notes := eraseKey cid st.notes }).1 := by
  have hguard : (currentHasContent st cid && !confirm) = false := by
    cases hh : currentHasContent st cid
    · rfl
    · rw [hg hh]
      rfl
  simp only [delete_note, hc]
  rw [if_neg (by rw [hguard]; exact Bool.noConfusion), if_pos hk,
    save_notes_fst_notes, he]

/-- Claim C3: when `delete_note` removes the current note and the
collection stays non-empty, a note whose `modified` timestamp is greatest
becomes current; and at startup, when the remembered last id is not a key
of the non-empty loaded collection, `initCurrent` selects a note whose
`modified` timestamp is greatest. -/
theorem C3_most_recent :
    (∀ now newId wf ed confirm st cid x xs, st.currentId = some cid →
      (currentHasContent st cid = true → confirm = true) →
      hasKey cid st.notes = true → eraseKey cid st.notes = x :: xs →
      (delete_note now newId wf ed confirm st).notes = x :: xs ∧
      ∃ q, q ∈ x :: xs ∧
        (delete_note now newId wf ed confirm st).currentId = some q.1 ∧
        ∀ p ∈ x :: xs, p.2.modified ≤ q.2.modified) ∧
    (∀ lastId notes x xs, notes = x :: xs →
      (∀ l, lastId = some l → hasKey l notes = false) →
      ∃ q, q ∈ notes ∧ initCurrent lastId notes = some q.1 ∧
        ∀ p ∈ notes, p.2.modified ≤ q.2.modified) := by
  constructor
  · intro now newId wf ed confirm st cid x xs hc hg hk he
    rw [delete_note_unfold now newId wf ed confirm st cid x xs hc hg hk he]
    set q := pyMax (fun p => p.2.modified) x xs with hq
    have hqm : q ∈ x :: xs := pyMax_mem _ x xs
    have hnotes :
        ((save_notes wf { st with notes := eraseKey cid st.notes }).1).notes =
          x :: xs := by
      rw [save_notes_fst_notes, he]
    refine ⟨?_, q, hqm, ?_, pyMax_ge _ x xs⟩
    · rw [load_note_notes, hnotes]
    · exact load_note_currentId_of_hasKey q.1 _
        (by rw [hnotes]; exact hasKey_of_mem q.1 q.2 _ (by simpa using hqm))
  · intro lastId notes x xs he hl
    subst he
    refine ⟨pyMax (fun p => p.2.modified) x xs, pyMax_mem _ x xs, ?_,
      pyMax_ge _ x xs⟩
    cases lastId with
    | none => rfl
    | some l =>
      simp only [initCurrent]
      rw [if_neg (by rw [hl l rfl]; exact Bool.noConfusion)]

/-- Witness for C3: deleting the current of two notes selects the one left
with the greater timestamp; startup with a stale remembered id selects the
most recently modified note. -/
theorem C3_most_recent_wit :
    ((delete_note 5 ['z'] false ['e'] true
        ⟨[(['a'], ⟨['t'], ['c'], 0, 1⟩), (['b'], ⟨['u'], ['d'], 0, 2⟩)],
         some ['a'], .absent⟩).notes = [(['b'], ⟨['u'], ['d'], 0, 2⟩)] ∧
      ∃ q, q ∈ [(['b'], (⟨['u'], ['d'], 0, 2⟩ : Note))] ∧
        (delete_note 5 ['z'] false ['e'] true
          ⟨[(['a'], ⟨['t'], ['c'], 0, 1⟩), (['b'], ⟨['u'], ['d'], 0, 2⟩)],
           some ['a'], .absent⟩).currentId = some q.1 ∧
        ∀ p ∈ [(['b'], (⟨['u'], ['d'], 0, 2⟩ : Note))],
          p.2.modified ≤ q.2.modified) ∧
    (∃ q, q ∈ [(['b'], (⟨['u'], ['d'], 0, 2⟩ : Note))] ∧
      initCurrent (some ['q']) [(['b'], ⟨['u'], ['d'], 0, 2⟩)] = some q.1 ∧
      ∀ p ∈ [(['b'], (⟨['u'], ['d'], 0, 2⟩ : Note))],
        p.2.modified ≤ q.2.modified) :=
  ⟨C3_most_recent.1 5 ['z'] false ['e'] true _ ['a']
      (['b'], ⟨['u'], ['d'], 0, 2⟩) [] rfl (fun _ => rfl) (by decide)
      (by decide),
   C3_most_recent.2 (some ['q']) _ (['b'], ⟨['u'], ['d'], 0, 2⟩) [] rfl
     (by intro l e
         cases e
         decide)⟩

/-! ## Persistence round-trip (C6) and error handling (C7) -/

theorem noteOfJ_noteToJ (n : Note) : noteOfJ (noteToJ n) = some n := rfl

theorem decodeEntries_map (m : NotesMap) :
    decodeEntries (m.map (fun p => (p.1, noteToJ p.2))) = some m := by
  induction m with
  | nil => rfl
  | cons p m ih =>
    obtain ⟨k, n⟩ := p
    simp only [List.map_cons, decodeEntries, noteOfJ_noteToJ, ih]

/-- Claim C6: persistence is whole-file — `save_notes` writes the entire
in-memory mapping as one JSON value, and loading what was saved yields a
JSON value that decodes back to exactly the saved mapping (write-then-read
round-trips to the identity), with no error reported. -/
theorem C6_roundtrip (st : AppState) :
    ((save_notes false st).1).file = .stored (notesToJ st.notes) ∧
    (load_notes ((save_notes false st).1).file).1 = notesToJ st.notes ∧
    notesOfJ (notesToJ st.notes) = some st.notes ∧
    (load_notes ((save_notes false st).1).file).2 = false := by
  refine ⟨rfl, rfl, ?_, rfl⟩
  exact decodeEntries_map st.notes

/-- Claim C7: I/O failures are caught and reported, not propagated.  An
existing-but-unreadable notes file makes `load_notes` report an error and
return the empty collection; a missing file returns the empty collection
with no error; a failing write makes `save_notes` report an error and
leave the whole state — in particular the in-memory collection —
unchanged, and a write never touches the in-memory collection. -/
theorem C7_io_errors :
    load_notes .unreadable = (.jobj [], true) ∧
    load_notes .absent = (.jobj [], false) ∧
    (∀ st, save_notes true st = (st, true)) ∧
    (∀ wf st, ((save_notes wf st).1).notes = st.notes ∧
      ((save_notes wf st).1).currentId = st.currentId) :=
  ⟨rfl, rfl, fun _ => rfl,
   fun wf st => ⟨save_notes_fst_notes wf st, save_notes_fst_currentId wf st⟩⟩

/-! ## The search filter (C2) -/

theorem sortByModified_sorted (m : NotesMap) :
    (sortByModified m).Pairwise (fun a b => b.2.modified ≤ a.2.modified) := by
  have h := @List.sorted_mergeSort (Str × Note) modDesc
    (fun a b c hab hbc =>
      decide_eq_true (le_trans (of_decide_eq_true hbc) (of_decide_eq_true hab)))
    (fun a b => by
      rcases le_total b.2.modified a.2.modified with h1 | h1 <;>
        simp [modDesc, h1])
    m
  exact h.imp (fun hab => of_decide_eq_true hab)

theorem sortByModified_perm (m : NotesMap) : (sortByModified m).Perm m :=
  List.mergeSort_perm m modDesc

/-- Counterexample to claim C2 as stated: `filter_notes` lowercases the
search text before comparing it with the placeholder, so the term
"SEARCH..." — which is neither empty nor the placeholder "Search..." — is
treated as the placeholder and every note is displayed, although the
lowercased term occurs in no title or content. -/
theorem C2_uppercase_placeholder :
    filter_notes ['S', 'E', 'A', 'R', 'C', 'H', '.', '.', '.']
        [(['a'], ⟨['x'], ['y'], 0, 0⟩)] = [(['a'], ⟨['x'], ['y'], 0, 0⟩)] ∧
    (['S', 'E', 'A', 'R', 'C', 'H', '.', '.', '.'] : Str) ≠
      searchPlaceholder ∧
    (['S', 'E', 'A', 'R', 'C', 'H', '.', '.', '.'] : Str) ≠ [] ∧
    matchesTerm (pyLower ['S', 'E', 'A', 'R', 'C', 'H', '.', '.', '.'])
      (['a'], ⟨['x'], ['y'], 0, 0⟩) = false := by
  refine ⟨?_, by decide, by decide, by decide⟩
  simp only [filter_notes, sortByModified]
  rw [List.mergeSort_singleton]
  decide

/-- Claim C2 (amended): the displayed list is always ordered by `modified`
descending; for a search text that is empty or any case-variant of the
placeholder (its lowercasing equals "search...") every note is displayed;
for any other text exactly the notes whose lowercased title or content
contains the lowercased term are displayed. -/
theorem C2_filter_display (sv : Str) (notes : NotesMap) :
    (filter_notes sv notes).Pairwise
      (fun a b => b.2.modified ≤ a.2.modified) ∧
    ((pyLower sv = [] ∨ pyLower sv = pyLower searchPlaceholder) →
      (filter_notes sv notes).Perm notes) ∧
    ((pyLower sv ≠ [] ∧ pyLower sv ≠ pyLower searchPlaceholder) →
      (filter_notes sv notes).Perm
        (notes.filter (matchesTerm (pyLower sv)))) := by
  by_cases hp : pyLower sv = pyLower searchPlaceholder
  · have hfe : filter_notes sv notes = sortByModified notes := by
      simp [filter_notes, hp]
    rw [hfe]
    exact ⟨sortByModified_sorted notes, fun _ => sortByModified_perm notes,
      fun h => absurd hp h.2⟩
  · by_cases he : pyLower sv = []
    · have hfe : filter_notes sv notes = sortByModified notes := by
        simp [filter_notes, hp, he]
      rw [hfe]
      exact ⟨sortByModified_sorted notes, fun _ => sortByModified_perm notes,
        fun h => absurd he h.1⟩
    · have hfe : filter_notes sv notes =
          (sortByModified notes).filter (matchesTerm (pyLower sv)) := by
        simp only [filter_notes, if_neg hp]
        rw [if_neg (by simpa [List.isEmpty_iff] using he)]
      rw [hfe]
      refine ⟨List.Pairwise.filter _ (sortByModified_sorted notes), ?_, ?_⟩
      · intro h
        rcases h with h | h
        · exact absurd h he
        · exact absurd h hp
      · intro _
        exact List.Perm.filter _ (sortByModified_perm notes)

/-- Witness for the amended C2: a term that matches exactly one of two
notes. -/
theorem C2_filter_display_wit :
    (filter_notes ['Y']
        [(['a'], ⟨['x'], ['y'], 0, 0⟩), (['b'], ⟨['p'], ['q'], 0, 1⟩)]).Perm
      (List.filter (matchesTerm (pyLower ['Y']))
        [(['a'], ⟨['x'], ['y'], 0, 0⟩), (['b'], ⟨['p'], ['q'], 0, 1⟩)]) :=
  (C2_filter_display ['Y']
      [(['a'], ⟨['x'], ['y'], 0, 0⟩), (['b'], ⟨['p'], ['q'], 0, 1⟩)]).2.2
    ⟨by decide, by decide⟩

/-! ## The debounced auto-save (C4) -/

/-- Does a timer pending at `f` fire before the next event of the trace? -/
def firesBefore (f : Nat) : List Nat → Bool
  | [] => true
  | t :: _ => decide (f < t)

theorem runAutoSave_none_cons (delay t : Nat) (ts : List Nat) :
    runAutoSave delay none (t :: ts) =
      runAutoSave delay (some (t + delay)) ts := rfl

theorem runAutoSave_some_split (delay f : Nat) (ts : List Nat) :
    runAutoSave delay (some f) ts =
      (if firesBefore f ts then [f] else []) ++ runAutoSave delay none ts := by
  cases ts with
  | nil => simp [runAutoSave, firesBefore]
  | cons t ts =>
    rw [runAutoSave_none_cons]
    by_cases h : f < t <;> simp [runAutoSave, firesBefore, on_text_modified, h]

theorem runAutoSave_none_eq (delay : Nat) (ts : List Nat)
    (hs : ts.Pairwise (· < ·)) :
    runAutoSave delay none ts =
      (ts.filter (fun t => decide (∀ u ∈ ts, t < u → t + delay < u))).map
        (· + delay) := by
  induction ts with
  | nil => rfl
  | cons t ts ih =>
    obtain ⟨hlt, hs'⟩ := List.pairwise_cons.mp hs
    have hpredeq : ∀ u ∈ ts,
        (decide (∀ w ∈ t :: ts, u < w → u + delay < w)) =
          (decide (∀ w ∈ ts, u < w → u + delay < w)) := by
      intro u hu
      rw [decide_eq_decide]
      constructor
      · intro h w hw hl
        exact h w (List.mem_cons_of_mem _ hw) hl
      · intro h w hw hl
        rcases List.mem_cons.mp hw with rfl | hw2
        · exact absurd hl (not_lt.mpr (le_of_lt (hlt u hu)))
        · exact h w hw2 hl
    have htail : List.filter
          (fun u => decide (∀ w ∈ t :: ts, u < w → u + delay < w)) ts =
        List.filter (fun u => decide (∀ w ∈ ts, u < w → u + delay < w)) ts :=
      List.filter_congr hpredeq
    have hfb : (decide (∀ w ∈ t :: ts, t < w → t + delay < w)) =
        firesBefore (t + delay) ts := by
      cases ts with
      | nil =>
        have hv : ∀ w ∈ [t], t < w → t + delay < w := by
          intro w hw hl
          rw [List.mem_singleton.mp hw] at hl
          exact absurd hl (lt_irrefl t)
        simp [firesBefore, hv]
      | cons t2 ts2 =>
        obtain ⟨hlt2, _⟩ := List.pairwise_cons.mp hs'
        rw [firesBefore, decide_eq_decide]
        constructor
        · intro h
          exact h t2 (List.mem_cons_of_mem _ (List.mem_cons_self _ _))
            (hlt t2 (List.mem_cons_self _ _))
        · intro h w hw hl
          rcases List.mem_cons.mp hw with rfl | hw2
          · exact absurd hl (lt_irrefl _)
          · rcases List.mem_cons.mp hw2 with rfl | hw3
            · exact h
            · exact lt_trans h (hlt2 w hw3)
    rw [runAutoSave_none_cons, runAutoSave_some_split, ih hs']
    simp only [List.filter_cons, hfb, htail]
    by_cases hfire : firesBefore (t + delay) ts = true
    · rw [if_pos hfire, if_pos hfire, List.map_cons]
      rfl
    · rw [if_neg hfire, if_neg hfire]
      rfl

theorem zip_tail_lt (ts : List Nat) (hs : ts.Pairwise (· < ·)) (a b : Nat)
    (hab : (a, b) ∈ ts.zip ts.tail) : a < b := by
  induction ts with
  | nil => simp at hab
  | cons t ts ih =>
    cases ts with
    | nil => simp at hab
    | cons t2 ts2 =>
      obtain ⟨hlt, hs'⟩ := List.pairwise_cons.mp hs
      rcases (by simpa using hab :
          (a = t ∧ b = t2) ∨ (a, b) ∈ (t2 :: ts2).zip ts2) with ⟨e1, e2⟩ | hmem
      · subst e1
        subst e2
        exact hlt b (List.mem_cons_self _ _)
      · exact ih hs' hmem

theorem zip_tail_adjacent (ts : List Nat) (hs : ts.Pairwise (· < ·))
    (a b : Nat) (hab : (a, b) ∈ ts.zip ts.tail) :
    ∀ u ∈ ts, u ≤ a ∨ b ≤ u := by
  induction ts with
  | nil => simp at hab
  | cons t ts ih =>
    cases ts with
    | nil => simp at hab
    | cons t2 ts2 =>
      obtain ⟨hlt, hs'⟩ := List.pairwise_cons.mp hs
      rcases (by simpa using hab :
          (a = t ∧ b = t2) ∨ (a, b) ∈ (t2 :: ts2).zip ts2) with ⟨e1, e2⟩ | hmem
      · subst e1
        subst e2
        intro u hu
        rcases List.mem_cons.mp hu with rfl | hu2
        · exact Or.inl (le_refl _)
        · rcases List.mem_cons.mp hu2 with rfl | hu3
          · exact Or.inr (le_refl _)
          · exact Or.inr (le_of_lt ((List.pairwise_cons.mp hs').1 u hu3))
      · intro u hu
        rcases List.mem_cons.mp hu with rfl | hu2
        · exact Or.inl (le_of_lt (hlt a (List.of_mem_zip hmem).1))
        · exact ih hs' hmem u hu2

/-- Claim C4: over any strictly increasing trace of effective text
modification events, the debounce of `on_text_modified` makes `auto_save`
fire exactly at the times `t + 1000` for those modifications `t` that end a
typing pause (every later modification lies more than the idle delay after
`t`, or `t` is last), and no save falls at or between two modifications
separated by less than the idle delay. -/
theorem C4_debounce (ts : List Nat) (hs : ts.Pairwise (· < ·)) :
    runAutoSave autoSaveDelay none ts =
      (ts.filter
        (fun t => decide (∀ u ∈ ts, t < u → t + autoSaveDelay < u))).map
        (· + autoSaveDelay) ∧
    ∀ a b, (a, b) ∈ ts.zip ts.tail → b < a + autoSaveDelay →
      ∀ s ∈ runAutoSave autoSaveDelay none ts, s < a ∨ b < s := by
  have hchar := runAutoSave_none_eq autoSaveDelay ts hs
  refine ⟨hchar, ?_⟩
  intro a b hab hclose s hsm
  rw [hchar] at hsm
  rcases List.mem_map.mp hsm with ⟨u, hu, rfl⟩
  have hu2 := List.mem_filter.mp hu
  have hpause : ∀ w ∈ ts, u < w → u + autoSaveDelay < w :=
    of_decide_eq_true hu2.2
  have hbmem : b ∈ ts := List.mem_of_mem_tail (List.of_mem_zip hab).2
  rcases zip_tail_adjacent ts hs a b hab u hu2.1 with hle | hge
  · rcases eq_or_lt_of_le hle with heq | hlt
    · subst heq
      exact absurd (hpause b hbmem (zip_tail_lt ts hs u b hab))
        (not_lt.mpr (le_of_lt hclose))
    · exact Or.inl (hpause a (List.of_mem_zip hab).1 hlt)
  · refine Or.inr (lt_of_le_of_lt hge ?_)
    have : 0 < autoSaveDelay := by norm_num [autoSaveDelay]
    omega

/-- Witness for C4 on the trace 0, 500, 600, 3000 ms. -/
theorem C4_debounce_wit :
    runAutoSave autoSaveDelay none [0, 500, 600, 3000] =
      (List.filter
        (fun t => decide (∀ u ∈ ([0, 500, 600, 3000] : List Nat),
          t < u → t + autoSaveDelay < u)) [0, 500, 600, 3000]).map
        (· + autoSaveDelay) ∧
    ∀ a b, (a, b) ∈ List.zip [0, 500, 600, 3000]
        (List.tail [0, 500, 600, 3000]) → b < a + autoSaveDelay →
      ∀ s ∈ runAutoSave autoSaveDelay none [0, 500, 600, 3000],
        s < a ∨ b < s :=
  C4_debounce [0, 500, 600, 3000] (by decide)
